import Mathlib

/-!
Shallow embedding of the wordle-bot repository (Rust) for checking its
natural-language specification.

Strings are modelled as `List Char` (the repository only handles ASCII
word lists).  Rust `HashSet<char>` is modelled as a duplicate-free
`List Char` with insert-if-absent (only membership matters to the
claims), `HashMap<usize, HashSet<char>>` as an association list, and a
Rust panic (index out of bounds / `expect`) as `Option.none`.

`src/filter.rs` and `src/ranking.rs` are not among the provided source
files; the definitions for them below are modelled from the spec and
marked as such in their doc comments.
-/

namespace WordleBot

/-- A single cell of feedback: the guessed letter and its state
(`'c'` correct, `'m'` misplaced, `'w'` wrong), from `src/game.rs`
`CellData`. -/
structure CellData where
  letter : Char
  state : Char
deriving Repr, DecidableEq

/-- The accumulated knowledge state, from `src/game.rs` `GameData`.
`lines` stores each ingested `(word, cells)` pair;
`correct_positions` is the fixed array of 5 optional letters. -/
structure GameData where
  lines : List (List Char × List CellData)
  contains_not : List Char
  correct_positions : List (Option Char)
  misplaced_letters : List (Nat × List Char)
  must_contain : List Char
deriving Repr, DecidableEq

/-- `GameData::new` from `src/game.rs`. -/
def GameData.new : GameData :=
  { lines := []
    contains_not := []
    correct_positions := [none, none, none, none, none]
    misplaced_letters := []
    must_contain := [] }

/-- Set insertion for the `HashSet<char>` model: membership-preserving,
idempotent. -/
def insertChar (s : List Char) (c : Char) : List Char :=
  if c ∈ s then s else c :: s

/-- `self.misplaced_letters.entry(i).or_default().insert(ch)` on the
association-list model of the hash map. -/
def mapInsert : List (Nat × List Char) → Nat → Char → List (Nat × List Char)
  | [], i, c => [(i, [c])]
  | (j, s) :: rest, i, c =>
    if j = i then (j, insertChar s c) :: rest
    else (j, s) :: mapInsert rest i c

/-- The body of the `match state` in `GameData::add_line`
(`src/game.rs` lines 42-57) for one position `i` with guessed letter
`ch` and verdict symbol `st`.  Unrecognized symbols fall through to the
identity (`_ => {}`). -/
def processCell (gd : GameData) (i : Nat) (ch st : Char) : GameData :=
  if st = 'c' then
    { gd with
      correct_positions := gd.correct_positions.set i (some ch)
      must_contain := insertChar gd.must_contain ch }
  else if st = 'm' then
    { gd with
      misplaced_letters := mapInsert gd.misplaced_letters i ch
      must_contain := insertChar gd.must_contain ch }
  else if st = 'w' then
    (if ch ∈ gd.must_contain then gd
     else { gd with contains_not := insertChar gd.contains_not ch })
  else gd

/-- `GameData::add_line` from `src/game.rs`.  The Rust code iterates
over `word.chars().zip(pattern.chars()).enumerate()`, mutating the
constraint sets, then panics (`expect("must be 5 letters")`) unless the
zipped cell list has exactly 5 entries; the panic is modelled as
`none`. -/
def addLine (gd : GameData) (word pattern : List Char) : Option GameData :=
  let pairs := word.zip pattern
  if pairs.length = 5 then
    let gd' := pairs.enum.foldl
      (fun g (ip : Nat × (Char × Char)) => processCell g ip.1 ip.2.1 ip.2.2) gd
    some { gd' with
      lines := gd'.lines ++ [(word, pairs.map (fun p => CellData.mk p.1 p.2))] }
  else none

/-- `GameData::reset` from `src/game.rs`. -/
def GameData.reset (_gd : GameData) : GameData := GameData.new

/-- One decrement of a letter's remaining count,
`*remaining_counts.get_mut(&g).unwrap() -= 1` on the function model of
the hash map. -/
def decr (m : Char → Nat) (c : Char) : Char → Nat :=
  fun x => if x = c then m x - 1 else m x

/-- `*remaining_counts.entry(c).or_insert(0) += 1`. -/
def bumpCount (m : Char → Nat) (c : Char) : Char → Nat :=
  fun x => if x = c then m x + 1 else m x

/-- Building `remaining_counts` from the target word
(`src/solver.rs` lines 187-190). -/
def buildCounts (t : List Char) : Char → Nat :=
  t.foldl bumpCount (fun _ => 0)

/-- First pass of `Solver::evaluate_word` (`src/solver.rs` lines
192-205): positions where guess and target agree are marked `'c'`, the
rest keep the `'w'` placeholder; every cell records the guessed
letter. -/
def firstPassCells : List (Char × Char) → List CellData
  | [] => []
  | p :: rest =>
    (if p.1 = p.2 then CellData.mk p.1 'c' else CellData.mk p.1 'w') :: firstPassCells rest

/-- The count decrements done by the first pass of
`Solver::evaluate_word`: one decrement per exact match. -/
def firstPassCounts (cnt : Char → Nat) : List (Char × Char) → Char → Nat
  | [] => cnt
  | p :: rest => firstPassCounts (if p.1 = p.2 then decr cnt p.1 else cnt) rest

/-- Second pass of `Solver::evaluate_word` (`src/solver.rs` lines
207-222): skip `'c'` cells; otherwise mark `'m'` and decrement when the
letter still has remaining count, else mark `'w'`. -/
def secondPass : (Char → Nat) → List CellData → List CellData
  | _, [] => []
  | cnt, cell :: rest =>
    if cell.state = 'c' then cell :: secondPass cnt rest
    else if 0 < cnt cell.letter then
      CellData.mk cell.letter 'm' :: secondPass (decr cnt cell.letter) rest
    else CellData.mk cell.letter 'w' :: secondPass cnt rest

/-- `Solver::evaluate_word` from `src/solver.rs`.  The Rust code
indexes `guessed_chars[i]` and `target_chars[i]` for `i in 0..5`, which
panics (modelled as `none`) when either word is shorter than 5; extra
characters beyond position 5 take no part except that the remaining
counts are built from the whole target. -/
def evaluateWord (g t : List Char) : Option (List CellData) :=
  if 5 ≤ g.length ∧ 5 ≤ t.length then
    let pairs := (g.take 5).zip (t.take 5)
    some (secondPass (firstPassCounts (buildCounts t) pairs) (firstPassCells pairs))
  else none

/-- `Solver::get_pattern` from `src/solver.rs`. -/
def getPattern (cells : List CellData) : List Char :=
  cells.map (fun cell => cell.state)

/-- `SimulationResults` from `src/stats.rs`; the guess-distribution
hash map is modelled as a total function with default 0 (matching
`entry(k).or_insert(0)`). -/
structure SimulationResults where
  total_games : Nat
  wins : Nat
  total_guesses : Nat
  guess_distribution : Nat → Nat

/-- `SimulationResults::new` from `src/stats.rs`. -/
def SimulationResults.new : SimulationResults :=
  { total_games := 0, wins := 0, total_guesses := 0, guess_distribution := fun _ => 0 }

/-- `*self.guess_distribution.entry(k).or_insert(0) += 1` on the
function model. -/
def bumpNat (m : Nat → Nat) (k : Nat) : Nat → Nat :=
  fun x => if x = k then m x + 1 else m x

/-- `SimulationResults::record_game` from `src/stats.rs` lines 20-30. -/
def recordGame (r : SimulationResults) (num_guesses : Nat) : SimulationResults :=
  { total_games := r.total_games + 1
    wins := if num_guesses ≤ 6 then r.wins + 1 else r.wins
    total_guesses := if num_guesses ≤ 6 then r.total_guesses + num_guesses else r.total_guesses
    guess_distribution :=
      bumpNat r.guess_distribution (if num_guesses ≤ 6 then num_guesses else 7) }

/-- `str::trim` on the list-of-chars model: strip whitespace from both
ends. -/
def trimStr (l : List Char) : List Char :=
  ((l.dropWhile Char.isWhitespace).reverse.dropWhile Char.isWhitespace).reverse

/-- `str::to_lowercase` on the list-of-chars model (ASCII; the corpus
is ASCII word lists). -/
def toLowerStr (l : List Char) : List Char := l.map Char.toLower

/-- The corpus-loading part of `Solver::new` (`src/solver.rs` lines
17-36), taking the already-split lines of `wordlist.txt`: trim and
lowercase each entry, keep those of length 5, and error when none
remain. -/
def solverNew (fileLines : List (List Char)) : Except (List Char) (List (List Char)) :=
  let words := (fileLines.map (fun w => toLowerStr (trimStr w))).filter
    (fun w => w.length = 5)
  if words.isEmpty then Except.error ("wordlist.txt is empty or invalid".toList)
  else Except.ok words

/-- The target-subset selection in `run_simulation` (`src/simulate.rs`
lines 20-24): the tail of the word list past index 10657 when the list
is longer than that, otherwise the whole list. -/
def targetWords (all_words : List (List Char)) : List (List Char) :=
  if 10657 < all_words.length then all_words.drop 10657 else all_words

/-- The emptiness check on the target subset in `run_simulation`
(`src/simulate.rs` lines 26-30). -/
def runSimulationTargets (all_words : List (List Char)) :
    Except (List Char) (List (List Char)) :=
  let t := targetWords all_words
  if t.isEmpty then
    Except.error ("No target words available for simulation. Ensure 'wordlist.txt' is correct.".toList)
  else Except.ok t

/-- The per-attempt weight selection
`weights[game.lines.len().min(weights.len() - 1)]` shared by
`Solver::rank_words` (`src/solver.rs` lines 263-264) and
`Solver::simulate` (lines 126-127); the out-of-bounds panic of Rust
indexing is modelled as `none`. -/
def selectWeight {α : Type} (ws : List α) (n : Nat) : Option α :=
  ws.get? (min n (ws.length - 1))

/-- Modelled from the spec: `src/filter.rs` (the `CandidateFilter`) is
not among the provided sources.  Survival test for one word against the
knowledge state, following spec section 4.3: correct positions must
match; at a position with recorded misplaced letters the word must not
have one of them there yet must contain each of them; every
`must_contain` letter appears; no `excluded` letter appears. -/
def filterWord (gd : GameData) (w : List Char) : Bool :=
  (gd.correct_positions.enum.all (fun io =>
    match io.2 with
    | some c => w.getD io.1 ' ' == c
    | none => true)) &&
  (gd.misplaced_letters.all (fun is =>
    !(is.2.contains (w.getD is.1 ' ')) && is.2.all (fun c => w.contains c))) &&
  (gd.must_contain.all (fun c => w.contains c)) &&
  (gd.contains_not.all (fun c => !(w.contains c)))

/-- Modelled from the spec: `Filter::filter_words` of the missing
`src/filter.rs`, an order-preserving filter of the candidate list
(spec section 4.3). -/
def filterWords (gd : GameData) (ws : List (List Char)) : List (List Char) :=
  ws.filter (filterWord gd)

/-- Modelled from the spec: positional-frequency score of a word (spec
section 4.5, unweighted rank), summing the statistics-table count of
each letter at its position.  The statistics table is an abstract
function from letter and position to a count. -/
def posFrequency (stats : Char → Nat → Nat) (w : List Char) : Nat :=
  (w.enum.map (fun ic => stats ic.2 ic.1)).sum

/-- Modelled from the spec: the distinct-letter bonus of the weighted
rank "rewards words with 5 unique letters" (spec section 4.5); modelled
as the indicator of all letters being distinct. -/
def distinctLetterBonus (w : List Char) : ℚ :=
  if w.dedup.length = w.length then 1 else 0

/-- Modelled from the spec: the elimination bonus is "a
configuration-tunable approximation" the spec leaves open (sections 4.5
and 9); modelled as the zero heuristic, one admissible instance.  No
claim depends on its value. -/
def eliminationBonus (_w : List Char) : ℚ := 0

/-- Modelled from the spec: the weighted score
`w1 * positional_frequency + w2 * distinct_letter_bonus +
w3 * elimination_bonus` (spec section 4.5), with the real coefficients
modelled as rationals. -/
def weightedScore (stats : Char → Nat → Nat) (wt : ℚ × ℚ × ℚ) (w : List Char) : ℚ :=
  wt.1 * (posFrequency stats w : ℚ) + wt.2.1 * distinctLetterBonus w
    + wt.2.2 * eliminationBonus w

/-- Insertion step of a stable descending sort: a new element goes
after every element with a score at least as large. -/
def insertDesc {α : Type} : (α × ℚ) → List (α × ℚ) → List (α × ℚ)
  | p, [] => [p]
  | p, q :: rest => if q.2 < p.2 then p :: q :: rest else q :: insertDesc p rest

/-- Stable sort by descending score, ties broken by input order (spec
section 4.5). -/
def sortByDesc {α : Type} (l : List (α × ℚ)) : List (α × ℚ) :=
  l.foldl (fun acc p => insertDesc p acc) []

/-- Modelled from the spec: `rank_words` of the missing
`src/ranking.rs` — unweighted positional-frequency ranking, descending,
stable (spec section 4.5). -/
def rankWordsU (stats : Char → Nat → Nat) (ws : List (List Char)) :
    List (List Char × ℚ) :=
  sortByDesc (ws.map (fun w => (w, (posFrequency stats w : ℚ))))

/-- Modelled from the spec: `weighted_rank` of the missing
`src/ranking.rs` — weighted ranking with an attempt-indexed weight
triple, descending, stable (spec section 4.5). -/
def weightedRank (stats : Char → Nat → Nat) (wt : ℚ × ℚ × ℚ)
    (ws : List (List Char)) : List (List Char × ℚ) :=
  sortByDesc (ws.map (fun w => (w, weightedScore stats wt w)))

/-- `Solver::get_top_suggestion_silent` from `src/solver.rs` lines
234-252: rank the current candidates (weighted when a weight triple is
supplied) and return the first ranked word, or the error
`"No suggested words remaining"` when none. -/
def getTopSuggestionSilent (current_words : List (List Char))
    (stats : Char → Nat → Nat) (weights : Option (ℚ × ℚ × ℚ)) :
    Except (List Char) (List Char) :=
  let ranked := match weights with
    | some wt => weightedRank stats wt current_words
    | none => rankWordsU stats current_words
  match ranked with
  | [] => Except.error ("No suggested words remaining".toList)
  | (w, _) :: _ => Except.ok w

/-- The session-local solver state cloned at the top of
`Solver::simulate` (`src/solver.rs` lines 114-118). -/
structure TempSolver where
  game : GameData
  current_words : List (List Char)
  all_words : List (List Char)

/-- The `while guesses < max_guesses` loop of `Solver::simulate`
(`src/solver.rs` lines 125-157), with fuel `max_guesses - guesses`.
`none` models a panic (weight indexing or `evaluate_word` out of
bounds); `some (Except.error e)` models an `Err` propagated by `?`;
`some (Except.ok n)` a normal return. -/
def simulateLoop (stats : Char → Nat → Nat) (weights : List (ℚ × ℚ × ℚ))
    (target : List Char) :
    Nat → TempSolver → Nat → Option (Except (List Char) Nat)
  | 0, _, _ => some (Except.ok 7)
  | fuel + 1, ts, guesses =>
    match selectWeight weights ts.game.lines.length with
    | none => none
    | some wt =>
      let ts1 : TempSolver :=
        if guesses = 0 then ts
        else { ts with current_words := filterWords ts.game ts.current_words }
      match getTopSuggestionSilent ts1.current_words stats
          (if guesses = 0 then none else some wt) with
      | Except.error e => some (Except.error e)
      | Except.ok guess_word =>
        let guesses1 := guesses + 1
        if guess_word = target then some (Except.ok guesses1)
        else if guess_word.length ≠ 5 ∨ ¬ guess_word ∈ ts1.all_words then
          some (Except.ok 7)
        else
          match evaluateWord guess_word target with
          | none => none
          | some cells =>
            match addLine ts1.game guess_word (getPattern cells) with
            | none => none
            | some g' =>
              simulateLoop stats weights target fuel
                { ts1 with game := g' } guesses1

/-- `Solver::simulate` from `src/solver.rs` lines 108-158: fresh
session state over `all_words`, loop capped at `max_guesses = 6`,
returning `Ok(max_guesses + 1)` when the budget is exhausted. -/
def simulate (all_words : List (List Char)) (target : List Char)
    (stats : Char → Nat → Nat) (weights : List (ℚ × ℚ × ℚ)) :
    Option (Except (List Char) Nat) :=
  simulateLoop stats weights target 6
    { game := GameData.new, current_words := all_words, all_words := all_words } 0

/-- Number of occurrences of the letter `c` in a word (the spec-side
measure of the duplicate-letter conservation law). -/
def occCount : List Char → Char → Nat
  | [], _ => 0
  | x :: rest, c => (if x = c then 1 else 0) + occCount rest c

/-- Number of cells whose guessed letter is `c` and whose state is
`st`. -/
def stateCount : List CellData → Char → Char → Nat
  | [], _, _ => 0
  | cell :: rest, c, st =>
    (if cell.letter = c ∧ cell.state = st then 1 else 0) + stateCount rest c st

/-- Number of cells whose guessed letter is `c` marked correct or
misplaced — the quantity bounded by the conservation law. -/
def cmCount : List CellData → Char → Nat
  | [], _ => 0
  | cell :: rest, c =>
    (if cell.letter = c ∧ (cell.state = 'c' ∨ cell.state = 'm') then 1 else 0)
      + cmCount rest c

/-- Number of exact-match positions whose letter is `c`. -/
def matchCount : List (Char × Char) → Char → Nat
  | [], _ => 0
  | p :: rest, c => (if p.1 = p.2 ∧ p.1 = c then 1 else 0) + matchCount rest c

/-- A knowledge state with a confirmed letter at position 0, used to
instantiate C7. -/
def gdWithCorrect : GameData :=
  (addLine GameData.new ['a','a','a','a','a'] ['c','c','c','c','c']).getD GameData.new

/-! ### Lemmas about the knowledge-state update -/

theorem mem_insertChar_iff {s : List Char} {c d : Char} :
    c ∈ insertChar s d ↔ c = d ∨ c ∈ s := by
  unfold insertChar
  split
  · constructor
    · exact fun h => Or.inr h
    · rintro (rfl | h) <;> assumption
  · simp [List.mem_cons]

theorem mem_insertChar_of_mem {s : List Char} {c : Char} (d : Char)
    (h : c ∈ s) : c ∈ insertChar s d :=
  mem_insertChar_iff.mpr (Or.inr h)

theorem processCell_mustContain_mono {gd : GameData} {c : Char}
    (i : Nat) (ch st : Char) (h : c ∈ gd.must_contain) :
    c ∈ (processCell gd i ch st).must_contain := by
  unfold processCell
  split
  · exact mem_insertChar_of_mem ch h
  · split
    · exact mem_insertChar_of_mem ch h
    · split
      · split <;> exact h
      · exact h

theorem processCell_contains_not {gd : GameData} {c : Char}
    {i : Nat} {ch st : Char}
    (h : c ∈ (processCell gd i ch st).contains_not) :
    c ∈ gd.contains_not ∨ c ∉ gd.must_contain := by
  unfold processCell at h
  split at h
  · exact Or.inl h
  · split at h
    · exact Or.inl h
    · split at h
      · split at h
        · exact Or.inl h
        · rcases mem_insertChar_iff.mp h with rfl | hmem
          · rename_i hnot
            exact Or.inr hnot
          · exact Or.inl hmem
      · exact Or.inl h

/-- The fold invariant over one ingested line: `must_contain` only
grows, and every letter newly in `contains_not` was outside
`must_contain` beforehand. -/
theorem foldl_processCell_inv :
    ∀ (l : List (Nat × (Char × Char))) (gd : GameData),
    (∀ c, c ∈ (l.foldl
        (fun g (ip : Nat × (Char × Char)) => processCell g ip.1 ip.2.1 ip.2.2)
        gd).contains_not →
      c ∈ gd.contains_not ∨ c ∉ gd.must_contain) ∧
    (∀ c, c ∈ gd.must_contain →
      c ∈ (l.foldl
        (fun g (ip : Nat × (Char × Char)) => processCell g ip.1 ip.2.1 ip.2.2)
        gd).must_contain) := by
  intro l
  induction l with
  | nil => exact fun gd => ⟨fun c h => Or.inl h, fun c h => h⟩
  | cons p rest ih =>
    intro gd
    refine ⟨fun c h => ?_, fun c h => ?_⟩
    · rcases (ih (processCell gd p.1 p.2.1 p.2.2)).1 c h with h1 | h1
      · rcases processCell_contains_not h1 with h2 | h2
        · exact Or.inl h2
        · exact Or.inr h2
      · exact Or.inr (fun hc => h1 (processCell_mustContain_mono p.1 p.2.1 p.2.2 hc))
    · exact (ih (processCell gd p.1 p.2.1 p.2.2)).2 c
        (processCell_mustContain_mono p.1 p.2.1 p.2.2 h)

/-- C1, counterexample: the claimed disjointness of `must_contain` and
`contains_not` fails after a single completed `add_line` from the empty
state — in `"aabbb"` with verdict `"wcwww"`, position 0 puts `'a'` into
`contains_not` and position 1 then puts `'a'` into `must_contain`
without removing it from `contains_not`. -/
theorem mustContain_contains_not_overlap :
    (addLine GameData.new ['a','a','b','b','b'] ['w','c','w','w','w']).isSome = true ∧
    'a' ∈ ((addLine GameData.new ['a','a','b','b','b']
      ['w','c','w','w','w']).getD GameData.new).must_contain ∧
    'a' ∈ ((addLine GameData.new ['a','a','b','b','b']
      ['w','c','w','w','w']).getD GameData.new).contains_not := by
  decide

/-- C1, amended: a letter newly added to `contains_not` by a completed
`add_line` was not in `must_contain` before that call (the `'w'` branch
checks `must_contain` at insertion time); disjointness of the two sets
can nevertheless break, because a letter already in `contains_not` is
later added to `must_contain` by a `'c'` or `'m'` verdict without being
removed from `contains_not`. -/
theorem contains_not_gains_only_non_mustContain
    (gd : GameData) (word pattern : List Char) (gd' : GameData) (c : Char)
    (h : addLine gd word pattern = some gd')
    (hc : c ∈ gd'.contains_not) :
    c ∈ gd.contains_not ∨ c ∉ gd.must_contain := by
  unfold addLine at h
  dsimp only at h
  split at h
  · rcases Option.some.inj h with rfl
    exact (foldl_processCell_inv ((word.zip pattern).enum) gd).1 c hc
  · exact absurd h (by simp)

/-- Witness for the amended C1 at a concrete ingest. -/
theorem contains_not_gains_only_non_mustContain_app :
    'a' ∈ GameData.new.contains_not ∨ 'a' ∉ GameData.new.must_contain :=
  contains_not_gains_only_non_mustContain GameData.new
    ['a','a','a','a','a'] ['w','w','w','w','w']
    ((addLine GameData.new ['a','a','a','a','a']
      ['w','w','w','w','w']).getD GameData.new)
    'a' (by decide) (by decide)

theorem getD_set_isSome (l : List (Option Char)) (j : Nat) (v : Char) :
    ∀ i, ((l.getD i none).isSome = true) →
    (((l.set j (some v)).getD i none).isSome = true) := by
  induction l generalizing j with
  | nil => intro i h; simp [List.getD] at h
  | cons a t ih =>
    intro i h
    cases j with
    | zero =>
      cases i with
      | zero => simp [List.set]
      | succ i => simpa [List.set, List.getD] using h
    | succ j =>
      cases i with
      | zero => simpa [List.set, List.getD] using h
      | succ i =>
        simp only [List.set, List.getD_cons_succ] at h ⊢
        exact ih j i h

theorem processCell_correct_isSome {gd : GameData} (i0 : Nat) (ch st : Char)
    (i : Nat) (h : (gd.correct_positions.getD i none).isSome = true) :
    (((processCell gd i0 ch st).correct_positions).getD i none).isSome = true := by
  unfold processCell
  split
  · exact getD_set_isSome gd.correct_positions i0 ch i h
  · split
    · exact h
    · split
      · split <;> exact h
      · exact h

theorem foldl_processCell_correct_isSome :
    ∀ (l : List (Nat × (Char × Char))) (gd : GameData) (i : Nat),
    (gd.correct_positions.getD i none).isSome = true →
    (((l.foldl
        (fun g (ip : Nat × (Char × Char)) => processCell g ip.1 ip.2.1 ip.2.2)
        gd).correct_positions).getD i none).isSome = true := by
  intro l
  induction l with
  | nil => exact fun gd i h => h
  | cons p rest ih =>
    intro gd i h
    exact ih (processCell gd p.1 p.2.1 p.2.2) i
      (processCell_correct_isSome p.1 p.2.1 p.2.2 i h)

/-- C7: once `correct_positions[i]` holds a letter, any further
completed `add_line` leaves it holding a letter — the `'c'` branch only
overwrites a slot with `Some`, and no branch writes `None`. -/
theorem addLine_preserves_correct_positions
    (gd : GameData) (word pattern : List Char) (gd' : GameData) (i : Nat)
    (h : addLine gd word pattern = some gd')
    (hs : (gd.correct_positions.getD i none).isSome = true) :
    (gd'.correct_positions.getD i none).isSome = true := by
  unfold addLine at h
  dsimp only at h
  split at h
  · rcases Option.some.inj h with rfl
    exact foldl_processCell_correct_isSome ((word.zip pattern).enum) gd i hs
  · exact absurd h (by simp)

/-- Witness for C7 at a concrete pair of ingests. -/
theorem addLine_preserves_correct_positions_app :
    ((((addLine gdWithCorrect ['b','b','b','b','b']
      ['w','w','w','w','w']).getD GameData.new).correct_positions).getD 0 none).isSome = true :=
  addLine_preserves_correct_positions gdWithCorrect
    ['b','b','b','b','b'] ['w','w','w','w','w']
    ((addLine gdWithCorrect ['b','b','b','b','b']
      ['w','w','w','w','w']).getD GameData.new)
    0 (by decide) (by decide)

theorem processCell_unknown_symbol {gd : GameData} {i : Nat} {ch st : Char}
    (hc : st ≠ 'c') (hm : st ≠ 'm') (hw : st ≠ 'w') :
    processCell gd i ch st = gd := by
  unfold processCell
  simp [hc, hm, hw]

theorem foldl_processCell_unknown :
    ∀ (l : List (Nat × (Char × Char))) (gd : GameData),
    (∀ ip ∈ l, ip.2.2 ≠ 'c' ∧ ip.2.2 ≠ 'm' ∧ ip.2.2 ≠ 'w') →
    l.foldl (fun g (ip : Nat × (Char × Char)) => processCell g ip.1 ip.2.1 ip.2.2) gd
      = gd := by
  intro l
  induction l with
  | nil => exact fun gd _ => rfl
  | cons p rest ih =>
    intro gd hall
    have hp := hall p (List.mem_cons_self p rest)
    have : processCell gd p.1 p.2.1 p.2.2 = gd :=
      processCell_unknown_symbol hp.1 hp.2.1 hp.2.2
    simp only [List.foldl_cons, this]
    exact ih gd (fun ip hip => hall ip (List.mem_cons_of_mem p hip))

/-- C4, counterexample: `add_line` does not fail on a verdict made of
unrecognized symbols — with word `"aaaaa"` and verdict `"xxxxx"` it
completes and appends the line to the history. -/
theorem addLine_accepts_unknown_symbols :
    (addLine GameData.new ['a','a','a','a','a'] ['x','x','x','x','x']).isSome = true ∧
    ((addLine GameData.new ['a','a','a','a','a']
      ['x','x','x','x','x']).getD GameData.new).lines.length = 1 := by
  decide

/-- C4, amended: `add_line` performs no validation of its own.  It
completes exactly when the zipped word/verdict pair list has length 5
(that is, `min |word| |verdict| = 5`); a shorter input makes it panic —
modelled as `none` — rather than return an error, and on 5/5 inputs an
unrecognized verdict symbol is silently ignored (the constraint sets
are untouched, only the history line is appended).  Length and symbol
validation happens in the interactive loop before `add_line` is
called. -/
theorem addLine_no_validation (gd : GameData) (word pattern : List Char) :
    ((addLine gd word pattern).isSome = true ↔ min word.length pattern.length = 5) ∧
    (word.length = 5 → pattern.length = 5 →
      (∀ s ∈ pattern, s ≠ 'c' ∧ s ≠ 'm' ∧ s ≠ 'w') →
      addLine gd word pattern = some { gd with lines := gd.lines ++
        [(word, (word.zip pattern).map (fun p => CellData.mk p.1 p.2))] }) := by
  constructor
  · unfold addLine
    dsimp only
    split
    · rename_i hl
      simp only [Option.isSome_some, true_iff]
      rw [← List.length_zip]
      exact hl
    · rename_i hl
      simp only [Option.isSome_none, Bool.false_eq_true, false_iff]
      rw [← List.length_zip]
      exact hl
  · intro hw hp hall
    unfold addLine
    dsimp only
    have hlen : (word.zip pattern).length = 5 := by
      simp [List.length_zip, hw, hp]
    rw [if_pos hlen]
    have hfold : (word.zip pattern).enum.foldl
        (fun g (ip : Nat × (Char × Char)) => processCell g ip.1 ip.2.1 ip.2.2) gd
        = gd := by
      refine foldl_processCell_unknown _ gd (fun ip hip => ?_)
      have h2 : ip.2 ∈ word.zip pattern := by
        rcases List.mem_enumFrom hip with ⟨_, _, h⟩
        rw [h]
        exact List.getElem_mem _
      exact hall ip.2.2 (List.of_mem_zip h2).2
    rw [hfold]

/-- Witness for the amended C4 at a concrete unvalidated ingest. -/
theorem addLine_no_validation_app :
    addLine GameData.new ['a','b','c','d','e'] ['x','y','z','x','y'] =
      some { GameData.new with lines := GameData.new.lines ++
        [(['a','b','c','d','e'],
          ((['a','b','c','d','e'] : List Char).zip
            (['x','y','z','x','y'] : List Char)).map
            (fun p => CellData.mk p.1 p.2))] } :=
  (addLine_no_validation GameData.new ['a','b','c','d','e']
    ['x','y','z','x','y']).2 (by decide) (by decide) (by decide)

/-! ### Lemmas about the feedback evaluator -/

theorem buildCounts_aux :
    ∀ (t : List Char) (m : Char → Nat) (c : Char),
    t.foldl bumpCount m c = m c + occCount t c := by
  intro t
  induction t with
  | nil => intro m c; simp only [List.foldl_nil, occCount]; omega
  | cons x rest ih =>
    intro m c
    simp only [List.foldl_cons]
    rw [ih]
    by_cases h : x = c
    · subst h
      simp only [bumpCount, occCount, if_true, eq_self_iff_true]
      omega
    · have h' : ¬ c = x := fun hc => h hc.symm
      simp only [bumpCount, occCount, if_neg h, if_neg h']
      omega

theorem buildCounts_eq (t : List Char) (c : Char) :
    buildCounts t c = occCount t c := by
  unfold buildCounts
  rw [buildCounts_aux]
  simp

theorem cmCount_split :
    ∀ (l : List CellData) (c : Char),
    cmCount l c = stateCount l c 'c' + stateCount l c 'm' := by
  intro l
  induction l with
  | nil => intro c; rfl
  | cons cell rest ih =>
    intro c
    obtain ⟨a, s⟩ := cell
    dsimp only [cmCount, stateCount]
    rw [ih]
    by_cases h1 : a = c
    · subst h1
      by_cases h2 : s = 'c'
      · subst h2
        rw [if_pos ⟨rfl, Or.inl rfl⟩, if_pos ⟨rfl, rfl⟩,
          if_neg (fun h => absurd h.2 (by decide))]
        omega
      · by_cases h3 : s = 'm'
        · subst h3
          rw [if_pos ⟨rfl, Or.inr rfl⟩, if_neg (fun h => h2 h.2), if_pos ⟨rfl, rfl⟩]
          omega
        · rw [if_neg (fun h => h.2.elim h2 h3), if_neg (fun h => h2 h.2),
            if_neg (fun h => h3 h.2)]
          omega
    · rw [if_neg (fun h => h1 h.1), if_neg (fun h => h1 h.1),
        if_neg (fun h => h1 h.1)]
      omega

theorem secondPass_m_le :
    ∀ (l : List CellData) (cnt : Char → Nat) (c : Char),
    stateCount (secondPass cnt l) c 'm' ≤ cnt c := by
  intro l
  induction l with
  | nil => intro cnt c; exact Nat.zero_le _
  | cons cell rest ih =>
    intro cnt c
    obtain ⟨a, s⟩ := cell
    by_cases hc : s = 'c'
    · subst hc
      dsimp only [secondPass]
      rw [if_pos rfl]
      dsimp only [stateCount]
      rw [if_neg (fun h => absurd h.2 (by decide))]
      have := ih cnt c
      omega
    · dsimp only [secondPass]
      rw [if_neg hc]
      by_cases hpos : 0 < cnt a
      · rw [if_pos hpos]
        dsimp only [stateCount]
        by_cases hl : a = c
        · subst hl
          rw [if_pos ⟨rfl, rfl⟩]
          have htail := ih (decr cnt a) a
          have hd : decr cnt a a = cnt a - 1 := by simp [decr]
          rw [hd] at htail
          omega
        · rw [if_neg (fun h => hl h.1)]
          have htail := ih (decr cnt a) c
          have hcl : ¬ c = a := fun h => hl h.symm
          have hd : decr cnt a c = cnt c := by simp [decr, hcl]
          rw [hd] at htail
          omega
      · rw [if_neg hpos]
        dsimp only [stateCount]
        rw [if_neg (fun h => absurd h.2 (by decide))]
        have := ih cnt c
        omega

theorem secondPass_c_eq :
    ∀ (l : List CellData) (cnt : Char → Nat) (c : Char),
    stateCount (secondPass cnt l) c 'c' = stateCount l c 'c' := by
  intro l
  induction l with
  | nil => intro cnt c; rfl
  | cons cell rest ih =>
    intro cnt c
    obtain ⟨a, s⟩ := cell
    by_cases hc : s = 'c'
    · subst hc
      dsimp only [secondPass]
      rw [if_pos rfl]
      dsimp only [stateCount]
      rw [ih]
    · dsimp only [secondPass]
      rw [if_neg hc]
      by_cases hpos : 0 < cnt a
      · rw [if_pos hpos]
        dsimp only [stateCount]
        rw [if_neg (fun h => absurd h.2 (by decide)), if_neg (fun h => hc h.2), ih]
      · rw [if_neg hpos]
        dsimp only [stateCount]
        rw [if_neg (fun h => absurd h.2 (by decide)), if_neg (fun h => hc h.2), ih]

theorem firstPassCounts_eq :
    ∀ (pairs : List (Char × Char)) (cnt : Char → Nat) (c : Char),
    firstPassCounts cnt pairs c = cnt c - matchCount pairs c := by
  intro pairs
  induction pairs with
  | nil => intro cnt c; dsimp only [firstPassCounts, matchCount]; omega
  | cons p rest ih =>
    intro cnt c
    obtain ⟨a, b⟩ := p
    dsimp only [firstPassCounts, matchCount]
    by_cases hm : a = b
    · rw [if_pos hm, ih]
      by_cases hl : a = c
      · subst hl
        rw [if_pos ⟨hm, rfl⟩]
        have hd : decr cnt a a = cnt a - 1 := by simp [decr]
        rw [hd]
        omega
      · rw [if_neg (fun h => hl h.2)]
        have hcl : ¬ c = a := fun h => hl h.symm
        have hd : decr cnt a c = cnt c := by simp [decr, hcl]
        rw [hd]
        omega
    · rw [if_neg hm, ih, if_neg (fun h => hm h.1)]
      omega

theorem firstPassCells_c_eq :
    ∀ (pairs : List (Char × Char)) (c : Char),
    stateCount (firstPassCells pairs) c 'c' = matchCount pairs c := by
  intro pairs
  induction pairs with
  | nil => intro c; rfl
  | cons p rest ih =>
    intro c
    obtain ⟨a, b⟩ := p
    dsimp only [firstPassCells, matchCount]
    by_cases hm : a = b
    · rw [if_pos hm]
      dsimp only [stateCount]
      by_cases hl : a = c
      · rw [if_pos ⟨hl, rfl⟩, if_pos ⟨hm, hl⟩, ih]
      · rw [if_neg (fun h => hl h.1), if_neg (fun h => hl h.2), ih]
    · rw [if_neg hm]
      dsimp only [stateCount]
      rw [if_neg (fun h => absurd h.2 (by decide)), if_neg (fun h => hm h.1), ih]

theorem matchCount_zip_le :
    ∀ (g t : List Char) (c : Char), matchCount (g.zip t) c ≤ occCount t c := by
  intro g
  induction g with
  | nil => intro t c; exact Nat.zero_le _
  | cons a g' ih =>
    intro t c
    cases t with
    | nil => exact Nat.zero_le _
    | cons b t' =>
      have hz : (a :: g').zip (b :: t') = (a, b) :: g'.zip t' := rfl
      rw [hz]
      dsimp only [matchCount, occCount]
      have := ih t' c
      by_cases hab : a = b
      · by_cases hac : a = c
        · have hbc : b = c := by rw [← hab]; exact hac
          rw [if_pos ⟨hab, hac⟩, if_pos hbc]
          omega
        · rw [if_neg (fun h => hac h.2)]
          by_cases hbc : b = c
          · rw [if_pos hbc]; omega
          · rw [if_neg hbc]; omega
      · rw [if_neg (fun h => hab h.1)]
        by_cases hbc : b = c
        · rw [if_pos hbc]; omega
        · rw [if_neg hbc]; omega

/-- C2: the duplicate-letter conservation law — for 5-letter guess and
target, the number of positions `evaluate_word` marks correct or
misplaced whose guessed letter is `c` never exceeds the number of
occurrences of `c` in the target. -/
theorem evaluateWord_duplicate_conservation
    (g t : List Char) (hg : g.length = 5) (ht : t.length = 5) (c : Char) :
    cmCount ((evaluateWord g t).getD []) c ≤ occCount t c := by
  unfold evaluateWord
  rw [if_pos ⟨by omega, by omega⟩]
  dsimp only
  rw [Option.getD_some]
  have hgt : g.take 5 = g := by rw [← hg]; exact List.take_length g
  have htt : t.take 5 = t := by rw [← ht]; exact List.take_length t
  rw [hgt, htt]
  have h1 := cmCount_split
    (secondPass (firstPassCounts (buildCounts t) (g.zip t)) (firstPassCells (g.zip t))) c
  have h2 := secondPass_c_eq (firstPassCells (g.zip t))
    (firstPassCounts (buildCounts t) (g.zip t)) c
  have h3 := firstPassCells_c_eq (g.zip t) c
  have h4 := secondPass_m_le (firstPassCells (g.zip t))
    (firstPassCounts (buildCounts t) (g.zip t)) c
  have h5 := firstPassCounts_eq (g.zip t) (buildCounts t) c
  have h6 := buildCounts_eq t c
  have h7 := matchCount_zip_le g t c
  omega

/-- Witness for C2 with a repeated-letter guess against a
repeated-letter target. -/
theorem evaluateWord_duplicate_conservation_app :
    cmCount ((evaluateWord ['a','a','b','b','b']
      ['a','c','a','a','b']).getD []) 'a' ≤ occCount ['a','c','a','a','b'] 'a' :=
  evaluateWord_duplicate_conservation ['a','a','b','b','b'] ['a','c','a','a','b']
    (by decide) (by decide) 'a'

theorem zip_self_eq : ∀ (l : List Char), l.zip l = l.map (fun a => (a, a)) := by
  intro l
  induction l with
  | nil => rfl
  | cons a rest ih =>
    have hz : (a :: rest).zip (a :: rest) = (a, a) :: rest.zip rest := rfl
    rw [hz, ih, List.map_cons]

theorem firstPassCells_self :
    ∀ (l : List Char),
    firstPassCells (l.map (fun a => (a, a))) = l.map (fun a => CellData.mk a 'c') := by
  intro l
  induction l with
  | nil => rfl
  | cons a rest ih =>
    simp only [List.map_cons, firstPassCells, ih, if_true, eq_self_iff_true]

theorem secondPass_all_c :
    ∀ (l : List CellData) (cnt : Char → Nat),
    (∀ cell ∈ l, cell.state = 'c') → secondPass cnt l = l := by
  intro l
  induction l with
  | nil => intro cnt _; rfl
  | cons cell rest ih =>
    intro cnt hall
    have hc : cell.state = 'c' := hall cell (List.mem_cons_self cell rest)
    dsimp only [secondPass]
    rw [if_pos hc, ih cnt (fun x hx => hall x (List.mem_cons_of_mem cell hx))]

/-- C3: evaluating a 5-letter word against itself marks all 5 positions
correct. -/
theorem evaluateWord_self_all_correct (t : List Char) (ht : t.length = 5) :
    evaluateWord t t = some (t.map (fun a => CellData.mk a 'c')) ∧
    ((evaluateWord t t).getD []).length = 5 ∧
    ∀ cell ∈ (evaluateWord t t).getD [], cell.state = 'c' := by
  have htt : t.take 5 = t := by rw [← ht]; exact List.take_length t
  have hmain : evaluateWord t t = some (t.map (fun a => CellData.mk a 'c')) := by
    unfold evaluateWord
    rw [if_pos ⟨by omega, by omega⟩]
    dsimp only
    rw [htt, zip_self_eq, firstPassCells_self]
    rw [secondPass_all_c (t.map (fun a => CellData.mk a 'c')) _ ?_]
    intro cell hcell
    rcases List.mem_map.mp hcell with ⟨a, _, rfl⟩
    rfl
  refine ⟨hmain, ?_, ?_⟩
  · rw [hmain, Option.getD_some, List.length_map, ht]
  · rw [hmain, Option.getD_some]
    intro cell hcell
    rcases List.mem_map.mp hcell with ⟨a, _, rfl⟩
    rfl

/-- Witness for C3 at a concrete word. -/
theorem evaluateWord_self_all_correct_app :
    evaluateWord ['a','b','c','d','e'] ['a','b','c','d','e'] =
      some ((['a','b','c','d','e'] : List Char).map (fun a => CellData.mk a 'c')) :=
  (evaluateWord_self_all_correct ['a','b','c','d','e'] (by decide)).1

/-! ### Weight selection, corpus loading, aggregation, simulation -/

/-- C6: for a non-empty weight sequence the selected triple is the one
at the clamped index `min n (len - 1)` — `ws[n]` while `n` is in range,
the last triple afterwards, and the access is never out of bounds. -/
theorem selectWeight_clamped {α : Type} (ws : List α) (n : Nat) (h : ws ≠ []) :
    (selectWeight ws n).isSome = true ∧
    (n < ws.length → selectWeight ws n = ws.get? n) ∧
    (ws.length ≤ n → selectWeight ws n = ws.getLast?) := by
  have hlen : 0 < ws.length := List.length_pos.mpr h
  refine ⟨?_, ?_, ?_⟩
  · unfold selectWeight
    have hlt : min n (ws.length - 1) < ws.length := by omega
    rw [List.get?_eq_get hlt]
    rfl
  · intro hn
    unfold selectWeight
    have : min n (ws.length - 1) = n := by omega
    rw [this]
  · intro hn
    unfold selectWeight
    have : min n (ws.length - 1) = ws.length - 1 := by omega
    rw [this, List.getLast?_eq_getElem?, ← List.get?_eq_getElem?]

/-- Witness for C6: with two triples and attempt index 9 the last
triple is selected. -/
theorem selectWeight_clamped_app :
    selectWeight ([(1, 2, 3), (4, 5, 6)] : List (Nat × Nat × Nat)) 9 =
      ([(1, 2, 3), (4, 5, 6)] : List (Nat × Nat × Nat)).getLast? :=
  (selectWeight_clamped [(1, 2, 3), (4, 5, 6)] 9 (by decide)).2.2 (by decide)

/-- C8: `Solver::new` keeps exactly the corpus entries whose trimmed,
lowercased form is 5 characters long, and errors precisely when no such
entry exists. -/
theorem solverNew_keeps_exactly_five (fileLines : List (List Char)) :
    (∀ ws, solverNew fileLines = Except.ok ws →
      ws = (fileLines.map (fun e => toLowerStr (trimStr e))).filter
        (fun w => w.length = 5)) ∧
    ((∃ e ∈ fileLines, (toLowerStr (trimStr e)).length = 5) ↔
      ∃ ws, solverNew fileLines = Except.ok ws) := by
  constructor
  · intro ws h
    unfold solverNew at h
    dsimp only at h
    split at h
    · cases h
    · exact (Except.ok.inj h).symm
  · constructor
    · rintro ⟨e, he, hlen⟩
      refine ⟨(fileLines.map (fun e => toLowerStr (trimStr e))).filter
        (fun w => w.length = 5), ?_⟩
      unfold solverNew
      dsimp only
      rw [if_neg ?_]
      have hmem : toLowerStr (trimStr e) ∈
          (fileLines.map (fun e => toLowerStr (trimStr e))).filter
            (fun w => w.length = 5) :=
        List.mem_filter.mpr ⟨List.mem_map_of_mem _ he, by simpa using hlen⟩
      intro hempty
      rw [List.isEmpty_iff] at hempty
      rw [hempty] at hmem
      cases hmem
    · rintro ⟨ws, h⟩
      unfold solverNew at h
      dsimp only at h
      split at h
      · cases h
      · rename_i hne
        have hnil : (fileLines.map (fun e => toLowerStr (trimStr e))).filter
            (fun w => w.length = 5) ≠ [] := by
          intro hx
          exact hne (by rw [hx]; rfl)
        obtain ⟨w, hw⟩ := List.exists_mem_of_ne_nil _ hnil
        rcases List.mem_filter.mp hw with ⟨hmem, hlen⟩
        rcases List.mem_map.mp hmem with ⟨e, he, rfl⟩
        exact ⟨e, he, by simpa using hlen⟩

/-- Witness for C8 at a one-line corpus whose entry trims and
lowercases to 5 characters. -/
theorem solverNew_keeps_exactly_five_app :
    ∃ ws, solverNew [['H','e','l','l','o',' ']] = Except.ok ws :=
  (solverNew_keeps_exactly_five [['H','e','l','l','o',' ']]).2.mp
    ⟨['H','e','l','l','o',' '], by decide, by decide⟩

theorem sum_bumpNat_hit (d : Nat → Nat) (key N : Nat) (hk : key < N) :
    ∑ k ∈ Finset.range N, bumpNat d key k = (∑ k ∈ Finset.range N, d k) + 1 := by
  have hsplit : ∀ k, bumpNat d key k = d k + (if k = key then 1 else 0) := by
    intro k
    unfold bumpNat
    split <;> omega
  rw [Finset.sum_congr rfl (fun k _ => hsplit k), Finset.sum_add_distrib,
    Finset.sum_ite_eq' (Finset.range N) key (fun _ => 1)]
  simp [Finset.mem_range, hk]

theorem sum_bumpNat_miss (d : Nat → Nat) (key N : Nat) (hk : ¬ key < N) :
    ∑ k ∈ Finset.range N, bumpNat d key k = ∑ k ∈ Finset.range N, d k := by
  have hsplit : ∀ k, bumpNat d key k = d k + (if k = key then 1 else 0) := by
    intro k
    unfold bumpNat
    split <;> omega
  rw [Finset.sum_congr rfl (fun k _ => hsplit k), Finset.sum_add_distrib,
    Finset.sum_ite_eq' (Finset.range N) key (fun _ => 1)]
  simp [Finset.mem_range, hk]

theorem recordGame_step_inv (r : SimulationResults) (n : Nat)
    (h1 : r.total_games = ∑ k ∈ Finset.range 8, r.guess_distribution k)
    (h2 : r.wins = ∑ k ∈ Finset.range 7, r.guess_distribution k)
    (h3 : ∀ k, 8 ≤ k → r.guess_distribution k = 0) :
    (recordGame r n).total_games =
      ∑ k ∈ Finset.range 8, (recordGame r n).guess_distribution k ∧
    (recordGame r n).wins =
      ∑ k ∈ Finset.range 7, (recordGame r n).guess_distribution k ∧
    ∀ k, 8 ≤ k → (recordGame r n).guess_distribution k = 0 := by
  have hkey8 : (if n ≤ 6 then n else 7) < 8 := by split <;> omega
  refine ⟨?_, ?_, ?_⟩
  · show r.total_games + 1 =
      ∑ k ∈ Finset.range 8, bumpNat r.guess_distribution (if n ≤ 6 then n else 7) k
    rw [sum_bumpNat_hit _ _ _ hkey8]
    omega
  · show (if n ≤ 6 then r.wins + 1 else r.wins) =
      ∑ k ∈ Finset.range 7, bumpNat r.guess_distribution (if n ≤ 6 then n else 7) k
    by_cases hn : n ≤ 6
    · rw [if_pos hn, if_pos hn, sum_bumpNat_hit _ _ _ (by omega)]
      omega
    · rw [if_neg hn, if_neg hn, sum_bumpNat_miss _ _ _ (by omega)]
      exact h2
  · intro k hk
    show bumpNat r.guess_distribution (if n ≤ 6 then n else 7) k = 0
    unfold bumpNat
    rw [if_neg (by omega)]
    exact h3 k hk

theorem recordGame_foldl_inv :
    ∀ (calls : List Nat) (r : SimulationResults),
    (r.total_games = ∑ k ∈ Finset.range 8, r.guess_distribution k ∧
     r.wins = ∑ k ∈ Finset.range 7, r.guess_distribution k ∧
     ∀ k, 8 ≤ k → r.guess_distribution k = 0) →
    ((calls.foldl recordGame r).total_games =
        ∑ k ∈ Finset.range 8, (calls.foldl recordGame r).guess_distribution k ∧
     (calls.foldl recordGame r).wins =
        ∑ k ∈ Finset.range 7, (calls.foldl recordGame r).guess_distribution k ∧
     ∀ k, 8 ≤ k → (calls.foldl recordGame r).guess_distribution k = 0) := by
  intro calls
  induction calls with
  | nil => exact fun r h => h
  | cons n rest ih =>
    intro r h
    exact ih (recordGame r n) (recordGame_step_inv r n h.1 h.2.1 h.2.2)

/-- C9: after any sequence of `record_game` calls from a fresh
`SimulationResults`, `total_games` is the sum of all distribution
counts (all mass sits at keys 0..7), and `wins` is the sum of the
counts at keys at most 6 — every call with more than 6 guesses lands in
the loss bucket at key 7. -/
theorem recordGame_distribution_invariant (calls : List Nat) :
    (calls.foldl recordGame SimulationResults.new).total_games =
      ∑ k ∈ Finset.range 8,
        (calls.foldl recordGame SimulationResults.new).guess_distribution k ∧
    (calls.foldl recordGame SimulationResults.new).wins =
      ∑ k ∈ Finset.range 7,
        (calls.foldl recordGame SimulationResults.new).guess_distribution k ∧
    ∀ k, 8 ≤ k →
      (calls.foldl recordGame SimulationResults.new).guess_distribution k = 0 :=
  recordGame_foldl_inv calls SimulationResults.new
    ⟨by simp [SimulationResults.new], by simp [SimulationResults.new],
      fun _ _ => rfl⟩

/-- Witness for C9 at a concrete call sequence with one win and one
loss. -/
theorem recordGame_distribution_invariant_app :
    (([3, 9] : List Nat).foldl recordGame SimulationResults.new).guess_distribution 8 = 0 :=
  (recordGame_distribution_invariant [3, 9]).2.2 8 (by decide)

/-- C10: a successfully constructed solver has a non-empty word list,
so the simulation target subset is non-empty and the
`"No target words available"` branch of `run_simulation` is not
taken. -/
theorem targetWords_nonempty_of_solverNew
    (fileLines : List (List Char)) (ws : List (List Char))
    (h : solverNew fileLines = Except.ok ws) :
    targetWords ws ≠ [] ∧ runSimulationTargets ws = Except.ok (targetWords ws) := by
  have hne : ws ≠ [] := by
    unfold solverNew at h
    dsimp only at h
    split at h
    · cases h
    · rename_i hnz
      rcases Except.ok.inj h with rfl
      intro hx
      exact hnz (by rw [hx]; rfl)
  have htw : targetWords ws ≠ [] := by
    unfold targetWords
    split
    · rename_i hgt
      intro hx
      have := congrArg List.length hx
      rw [List.length_drop] at this
      simp at this
      omega
    · exact hne
  refine ⟨htw, ?_⟩
  unfold runSimulationTargets
  dsimp only
  rw [if_neg ?_]
  intro hempty
  rw [List.isEmpty_iff] at hempty
  exact htw hempty

/-- Witness for C10 at a one-word corpus. -/
theorem targetWords_nonempty_of_solverNew_app :
    targetWords [['h','e','l','l','o']] ≠ [] ∧
    runSimulationTargets [['h','e','l','l','o']] =
      Except.ok (targetWords [['h','e','l','l','o']]) :=
  targetWords_nonempty_of_solverNew [['h','e','l','l','o']]
    [['h','e','l','l','o']] (by rfl)

/-- C5, counterexample: with the one-word corpus `["aaaaa"]` and hidden
target `"bbbbb"`, the first guess `"aaaaa"` excludes `'a'`, filtering
empties the candidate list, and `simulate` then propagates the error
`"No suggested words remaining"` instead of recording a loss with guess
count 7. -/
theorem simulate_errors_on_empty_candidates :
    simulate [['a','a','a','a','a']] ['b','b','b','b','b'] (fun _ _ => 0) [(1, 1, 1)] =
      some (Except.error ("No suggested words remaining".toList)) := by
  rfl

/-- C5, amended: when the filtered candidate list becomes empty,
`get_top_suggestion_silent` returns the error
`"No suggested words remaining"`, which `simulate` propagates with `?`
— the loss outcome (guess count 7) is recorded only when the guess
budget is exhausted or the safety check fires, not on candidate
exhaustion. -/
theorem getTopSuggestion_empty_error_propagates
    (stats : Char → Nat → Nat) (wt : Option (ℚ × ℚ × ℚ)) :
    getTopSuggestionSilent [] stats wt =
      Except.error ("No suggested words remaining".toList) ∧
    simulate [['a','a','a','a','a']] ['b','b','b','b','b'] (fun _ _ => 0) [(1, 1, 1)] =
      some (Except.error ("No suggested words remaining".toList)) := by
  constructor
  · unfold getTopSuggestionSilent
    cases wt <;> rfl
  · rfl

end WordleBot
